import Mathlib

/-!
Verification of the `collate` crate: a shallow embedding of its overlap
algebra (`src/lib.rs`), composite-key ranges (`src/range.rs`) and ordered
stream combinators (`src/stream/*.rs`), with theorems checking the
natural-language specification against the code.

A collator is embedded as a comparison function `c : V → V → Ordering`;
the generic `Collator<T: Ord>` forwards to the intrinsic order of `T`
(embedded for `Int` as `intCmp` below).
-/

/-- Models `std::ops::Bound<V>`: an endpoint of a one-dimensional range. -/
inductive CBound (V : Type) where
  | unbounded : CBound V
  | included (v : V) : CBound V
  | excluded (v : V) : CBound V
deriving DecidableEq

/-- A one-dimensional range, as the pair `(start_bound, end_bound)` that the
`RangeBounds` argument of `overlaps` in `src/lib.rs` exposes. -/
abbrev RangeB (V : Type) := CBound V × CBound V

/-- Models the `Overlap` enum of `src/lib.rs`. -/
inductive Overlap where
  | less : Overlap
  | greater : Overlap
  | equal : Overlap
  | narrow : Overlap
  | wide : Overlap
  | wideLess : Overlap
  | wideGreater : Overlap
deriving DecidableEq, Fintype

/-- Models `Overlap::then` of `src/lib.rs` (named `then'` because `then` is a
Lean keyword): the narrowest `Overlap` containing both arguments. -/
def Overlap.then' (a b : Overlap) : Overlap :=
  match a with
  | .wide => .wide
  | .narrow =>
    match b with
    | .less | .wideLess => .wideLess
    | .narrow | .equal => a
    | .wide => .wide
    | .greater | .wideGreater => .wideGreater
  | .equal =>
    match b with
    | .less | .wideLess => .wideLess
    | .equal | .narrow | .wide => b
    | .greater | .wideGreater => .wideGreater
  | .less | .wideLess =>
    match b with
    | .less => a
    | .wideLess | .narrow | .equal => .wideLess
    | .wide | .wideGreater | .greater => .wide
  | .greater | .wideGreater =>
    match b with
    | .greater => a
    | .wideGreater | .narrow | .equal => .wideGreater
    | .wide | .wideLess | .less => .wide

/-- Modelled from the spec: `Overlap::reverse` is not present under `src/`;
the spec (and claim C4) define it as swapping Less↔Greater, Narrow↔Wide,
WideLess↔WideGreater and fixing Equal. -/
def Overlap.swapDir : Overlap → Overlap
  | .less => .greater
  | .greater => .less
  | .equal => .equal
  | .narrow => .wide
  | .wide => .narrow
  | .wideLess => .wideGreater
  | .wideGreater => .wideLess

/-- Models `cmp_bound` of `src/lib.rs`: compare two bounds with the collator
`c`, using `l_ex` when only the left bound is absent or its exclusion decides
a tie, and `r_ex` symmetrically for the right bound. -/
def cmp_bound {V : Type} (c : V → V → Ordering) :
    CBound V → CBound V → Ordering → Ordering → Ordering
  | .unbounded, .unbounded, _, _ => .eq
  | _, .unbounded, l_ex, _ => l_ex
  | .unbounded, _, _, r_ex => r_ex
  | .included a, .included b, _, _ => c a b
  | .excluded a, .excluded b, _, _ => c a b
  | .excluded a, .included b, l_ex, _ =>
    match c a b with
    | .eq => l_ex
    | o => o
  | .included a, .excluded b, _, r_ex =>
    match c a b with
    | .eq => r_ex
    | o => o

/-- Models `overlaps` of `src/lib.rs`: classify how `left` relates to
`right` under the collator `c`. -/
def overlaps {V : Type} (c : V → V → Ordering) (left right : RangeB V) : Overlap :=
  let start := cmp_bound c left.1 right.1 .gt .lt
  let stop := cmp_bound c left.2 right.2 .lt .gt
  match start, stop with
  | .eq, .eq => .equal
  | .gt, .lt => .narrow
  | .gt, .eq => .narrow
  | .eq, .lt => .narrow
  | .lt, .gt => .wide
  | .lt, .eq => .wideLess
  | .eq, .gt => .wideGreater
  | .lt, _ =>
    match cmp_bound c left.2 right.1 .lt .lt with
    | .lt => .less
    | _ => .wideLess
  | _, .gt =>
    match cmp_bound c left.1 right.2 .gt .gt with
    | .gt => .greater
    | _ => .wideGreater

/-- The start comparison computed inside `overlaps_value` of `src/lib.rs`. -/
def ov_start {V : Type} (c : V → V → Ordering) (range : RangeB V) (value : V) : Ordering :=
  match range.1 with
  | .unbounded => .lt
  | .included start => c start value
  | .excluded start =>
    match c start value with
    | .lt => .lt
    | _ => .gt

/-- The end comparison computed inside `overlaps_value` of `src/lib.rs`. -/
def ov_stop {V : Type} (c : V → V → Ordering) (range : RangeB V) (value : V) : Ordering :=
  match range.2 with
  | .unbounded => .gt
  | .included stop => c stop value
  | .excluded stop =>
    match c stop value with
    | .gt => .gt
    | _ => .lt

/-- Models `overlaps_value` of `src/lib.rs`. The first two match arms carry
`debug_assert_eq!` checks in the source; the assertion conditions themselves
are stated separately over `ov_start` and `ov_stop`. -/
def overlaps_value {V : Type} (c : V → V → Ordering) (range : RangeB V) (value : V) : Overlap :=
  match ov_start c range value, ov_stop c range value with
  | _, .lt => .less
  | .gt, _ => .greater
  | .eq, .eq => .equal
  | .eq, .gt => .wideGreater
  | .lt, .gt => .wide
  | .lt, .eq => .wideLess

/-- A collator defining a valid total order, as the spec requires:
comparison is antisymmetric (`symm`) and transitive through both strict
comparison and equivalence. -/
structure ValidOrder {V : Type} (c : V → V → Ordering) : Prop where
  symm : ∀ a b, c b a = (c a b).swap
  lt_trans : ∀ a b d, c a b = .lt → c b d = .lt → c a d = .lt
  eq_lt : ∀ a b d, c a b = .eq → c b d = .lt → c a d = .lt
  eq_trans : ∀ a b d, c a b = .eq → c b d = .eq → c a d = .eq

/-- The natural-order collator on integers: models `Collator::<i64>::cmp`,
which forwards to the intrinsic total order. -/
def intCmp (a b : Int) : Ordering :=
  if a < b then .lt else if a = b then .eq else .gt

theorem validOrder_intCmp : ValidOrder intCmp := by
  constructor
  · intro a b
    simp only [intCmp, Ordering.swap]
    split_ifs <;> first | rfl | omega
  · intro a b d h1 h2
    unfold intCmp at *
    split_ifs at * <;> try simp_all
    all_goals omega
  · intro a b d h1 h2
    unfold intCmp at *
    split_ifs at * <;> simp_all
  · intro a b d h1 h2
    unfold intCmp at *
    split_ifs at * <;> simp_all

theorem ValidOrder.cmp_refl {V : Type} {c : V → V → Ordering} (vo : ValidOrder c) (a : V) :
    c a a = .eq := by
  have h := vo.symm a a
  cases hc : c a a
  · rw [hc] at h; simp [Ordering.swap] at h
  · rfl
  · rw [hc] at h; simp [Ordering.swap] at h

theorem ValidOrder.eq_symm {V : Type} {c : V → V → Ordering} (vo : ValidOrder c) {a b : V}
    (h : c a b = .eq) : c b a = .eq := by
  rw [vo.symm a b, h]; rfl

theorem ValidOrder.gt_iff {V : Type} {c : V → V → Ordering} (vo : ValidOrder c) {a b : V} :
    c a b = .gt ↔ c b a = .lt := by
  rw [vo.symm a b]
  cases h : c a b <;> decide

theorem ValidOrder.lt_eq {V : Type} {c : V → V → Ordering} (vo : ValidOrder c) {a b d : V}
    (h1 : c a b = .lt) (h2 : c b d = .eq) : c a d = .lt := by
  cases h3 : c a d
  · rfl
  · exact absurd (vo.eq_trans a d b h3 (vo.eq_symm h2)) (by simp [h1])
  · have h4 : c d a = .lt := vo.gt_iff.mp h3
    have h5 : c b a = .lt := vo.eq_lt b d a h2 h4
    exact absurd (vo.gt_iff.mpr h5) (by simp [h1])

theorem ValidOrder.le_trans {V : Type} {c : V → V → Ordering} (vo : ValidOrder c) {a b d : V}
    (h1 : c a b ≠ .gt) (h2 : c b d ≠ .gt) : c a d ≠ .gt := by
  cases hab : c a b
  · cases hbd : c b d
    · simp [vo.lt_trans a b d hab hbd]
    · simp [vo.lt_eq hab hbd]
    · exact absurd hbd h2
  · cases hbd : c b d
    · simp [vo.eq_lt a b d hab hbd]
    · simp [vo.eq_trans a b d hab hbd]
    · exact absurd hbd h2
  · exact absurd hab h1

theorem ValidOrder.lt_of_lt_of_le {V : Type} {c : V → V → Ordering} (vo : ValidOrder c)
    {a b d : V} (h1 : c a b = .lt) (h2 : c b d ≠ .gt) : c a d = .lt := by
  cases hbd : c b d
  · exact vo.lt_trans a b d h1 hbd
  · exact vo.lt_eq h1 hbd
  · exact absurd hbd h2

theorem ValidOrder.lt_of_le_of_lt {V : Type} {c : V → V → Ordering} (vo : ValidOrder c)
    {a b d : V} (h1 : c a b ≠ .gt) (h2 : c b d = .lt) : c a d = .lt := by
  cases hab : c a b
  · exact vo.lt_trans a b d hab h2
  · exact vo.eq_lt a b d hab h2
  · exact absurd hab h1

/-- Modelled from the spec: a range is well-formed when its end does not
precede its start under the collator. With at least one excluded endpoint
the bounds must compare strictly, since e.g. `[v, v)` or `(v, v]` is empty
with its effective end before its effective start. -/
def validRange {V : Type} (c : V → V → Ordering) (r : RangeB V) : Bool :=
  match r.1, r.2 with
  | .unbounded, _ => true
  | _, .unbounded => true
  | .included s, .included e => decide (c s e ≠ .gt)
  | .included s, .excluded e => decide (c s e = .lt)
  | .excluded s, .included e => decide (c s e = .lt)
  | .excluded s, .excluded e => decide (c s e = .lt)

/-- `overlaps_value` together with its `debug_assert_eq!` checks as in
`src/lib.rs`: the result is `none` when an assertion would fire in a debug
build. -/
def overlaps_value_checked {V : Type} (c : V → V → Ordering) (range : RangeB V)
    (value : V) : Option Overlap :=
  match ov_start c range value, ov_stop c range value with
  | start, .lt => if start = .lt then some .less else none
  | .gt, stop => if stop = .gt then some .greater else none
  | .eq, .eq => some .equal
  | .eq, .gt => some .wideGreater
  | .lt, .gt => some .wide
  | .lt, .eq => some .wideLess

theorem cmp_bound_swap {V : Type} {c : V → V → Ordering} (vo : ValidOrder c)
    (x y : CBound V) (a b : Ordering) :
    cmp_bound c y x b.swap a.swap = (cmp_bound c x y a b).swap := by
  cases x <;> cases y
  · rfl
  · rfl
  · rfl
  · rfl
  · rename_i v w
    exact vo.symm v w
  · rename_i v w
    have hsym := vo.symm v w
    cases h : c v w <;> rw [h] at hsym <;>
      simp [cmp_bound, hsym, Ordering.swap, h]
  · rfl
  · rename_i v w
    have hsym := vo.symm v w
    cases h : c v w <;> rw [h] at hsym <;>
      simp [cmp_bound, hsym, Ordering.swap, h]
  · rename_i v w
    exact vo.symm v w

/-- Modelled from the claim: the class of an `Overlap` in the purported
lattice {Less, WideLess} < {Narrow, Equal} < {WideGreater, Greater}, with the
absorbing element Wide on top. -/
def Overlap.classLevel : Overlap → Nat
  | .less | .wideLess => 0
  | .narrow | .equal => 1
  | .greater | .wideGreater => 2
  | .wide => 3

/-- C6 counterexample: `Overlap::then` is not the join on the class lattice
{Less, WideLess} < {Narrow, Equal} < {WideGreater, Greater}: at the concrete
input `Less.then(Equal)` the result is `WideLess`, which lies in the bottom
class even though the class-level join of `Less` and `Equal` is the middle
class. -/
theorem then_lattice_counterexample :
    Overlap.less.then' .equal = .wideLess
    ∧ (Overlap.less.then' .equal).classLevel ≠
        max Overlap.less.classLevel Overlap.equal.classLevel := by decide

/-- C6 (amended): `Overlap::then` is associative; moreover it is commutative
and idempotent — hence it is the join operation of the semilattice order it
induces — and `Wide` is absorbing on both sides. -/
theorem then_assoc :
    (∀ a b d : Overlap, (a.then' b).then' d = a.then' (b.then' d))
    ∧ (∀ a b : Overlap, a.then' b = b.then' a)
    ∧ (∀ a : Overlap, a.then' a = a)
    ∧ (∀ a : Overlap, Overlap.wide.then' a = .wide ∧ a.then' .wide = .wide) := by
  decide

/-- C7: the five concrete half-open integer-range scenarios from the spec,
under the natural-order collator: `[0,1)` vs `[2,5)` is Less; `[3,5)` vs
`[1,7)` is Narrow; `[1,7)` vs `[3,5)` is Wide; `[1,4)` vs `[3,5)` is
WideLess; `[3,5)` vs `[1,4)` is WideGreater. -/
theorem overlaps_concrete_scenarios :
    overlaps intCmp (CBound.included (0:Int), CBound.excluded 1)
      (CBound.included 2, CBound.excluded 5) = Overlap.less
    ∧ overlaps intCmp (CBound.included (3:Int), CBound.excluded 5)
      (CBound.included 1, CBound.excluded 7) = Overlap.narrow
    ∧ overlaps intCmp (CBound.included (1:Int), CBound.excluded 7)
      (CBound.included 3, CBound.excluded 5) = Overlap.wide
    ∧ overlaps intCmp (CBound.included (1:Int), CBound.excluded 4)
      (CBound.included 3, CBound.excluded 5) = Overlap.wideLess
    ∧ overlaps intCmp (CBound.included (3:Int), CBound.excluded 5)
      (CBound.included 1, CBound.excluded 4) = Overlap.wideGreater := by
  decide

/-- C4 counterexample: reverse-symmetry fails on the code. For the valid
integer ranges `A = [3,5)` and `B = [1,5)` under the natural-order collator,
`overlaps(A,B)` is Narrow but `overlaps(B,A)` is WideLess, not the claimed
`reverse` image Wide. -/
theorem overlaps_swap_counterexample :
    ValidOrder intCmp
    ∧ validRange intCmp (CBound.included (3:Int), CBound.excluded 5) = true
    ∧ validRange intCmp (CBound.included (1:Int), CBound.excluded 5) = true
    ∧ overlaps intCmp (CBound.included (3:Int), CBound.excluded 5)
        (CBound.included 1, CBound.excluded 5) = Overlap.narrow
    ∧ overlaps intCmp (CBound.included (1:Int), CBound.excluded 5)
        (CBound.included 3, CBound.excluded 5) = Overlap.wideLess
    ∧ overlaps intCmp (CBound.included (1:Int), CBound.excluded 5)
        (CBound.included 3, CBound.excluded 5)
      ≠ Overlap.swapDir (overlaps intCmp (CBound.included (3:Int), CBound.excluded 5)
        (CBound.included 1, CBound.excluded 5)) :=
  ⟨validOrder_intCmp, by decide, by decide, by decide, by decide, by decide⟩

/-- C4 (amended): for a valid total order and well-formed ranges, exchanging
the arguments of `overlaps` swaps Less with Greater, fixes Equal, sends Wide
to Narrow, and sends Narrow to one of Wide, WideLess, WideGreater — with
Wide exactly when both endpoint comparisons are strict, i.e. neither the
start-bound nor the end-bound comparison is Equal; symmetrically WideLess
reverses to WideGreater or Narrow and WideGreater to WideLess or Narrow. -/
theorem overlaps_swap {V : Type} {c : V → V → Ordering} (vo : ValidOrder c)
    (A B : RangeB V) (hA : validRange c A = true) (hB : validRange c B = true) :
    (overlaps c A B = .less → overlaps c B A = .greater)
    ∧ (overlaps c A B = .greater → overlaps c B A = .less)
    ∧ (overlaps c A B = .equal → overlaps c B A = .equal)
    ∧ (overlaps c A B = .wide → overlaps c B A = .narrow)
    ∧ (overlaps c A B = .narrow →
        (overlaps c B A = .wide ∨ overlaps c B A = .wideLess ∨ overlaps c B A = .wideGreater)
        ∧ (overlaps c B A = .wide ↔
            cmp_bound c A.1 B.1 .gt .lt ≠ .eq ∧ cmp_bound c A.2 B.2 .lt .gt ≠ .eq))
    ∧ (overlaps c A B = .wideLess →
        overlaps c B A = .wideGreater ∨ overlaps c B A = .narrow)
    ∧ (overlaps c A B = .wideGreater →
        overlaps c B A = .wideLess ∨ overlaps c B A = .narrow) := by
  have hs : cmp_bound c B.1 A.1 .gt .lt = (cmp_bound c A.1 B.1 .gt .lt).swap :=
    cmp_bound_swap vo A.1 B.1 .gt .lt
  have he : cmp_bound c B.2 A.2 .lt .gt = (cmp_bound c A.2 B.2 .lt .gt).swap :=
    cmp_bound_swap vo A.2 B.2 .lt .gt
  have h2 : cmp_bound c B.1 A.2 .gt .gt = (cmp_bound c A.2 B.1 .lt .lt).swap :=
    cmp_bound_swap vo A.2 B.1 .lt .lt
  have h3 : cmp_bound c B.2 A.1 .lt .lt = (cmp_bound c A.1 B.2 .gt .gt).swap :=
    cmp_bound_swap vo A.1 B.2 .gt .gt
  cases hS : cmp_bound c A.1 B.1 .gt .lt <;> cases hE : cmp_bound c A.2 B.2 .lt .gt
  case lt.lt =>
    cases h4 : cmp_bound c A.2 B.1 .lt .lt <;> rw [h4] at h2 <;>
      simp_all [overlaps, Ordering.swap]
  case gt.gt =>
    cases h4 : cmp_bound c A.1 B.2 .gt .gt <;> rw [h4] at h3 <;>
      simp_all [overlaps, Ordering.swap]
  all_goals simp_all [overlaps, Ordering.swap]

/-- C4 witness: the amended symmetry, instantiated at the integer ranges
`A = [1,4)` and `B = [3,5)`. -/
theorem overlaps_swap_witness :
    validRange intCmp (CBound.included (1:Int), CBound.excluded 4) = true
    ∧ validRange intCmp (CBound.included (3:Int), CBound.excluded 5) = true
    ∧ (overlaps intCmp (CBound.included (1:Int), CBound.excluded 4)
          (CBound.included 3, CBound.excluded 5) = .wideLess →
        overlaps intCmp (CBound.included (3:Int), CBound.excluded 5)
          (CBound.included 1, CBound.excluded 4) = .wideGreater ∨
        overlaps intCmp (CBound.included (3:Int), CBound.excluded 5)
          (CBound.included 1, CBound.excluded 4) = .narrow) :=
  ⟨by decide, by decide,
    (overlaps_swap validOrder_intCmp
      (CBound.included (1:Int), CBound.excluded 4)
      (CBound.included 3, CBound.excluded 5)
      (by decide) (by decide)).2.2.2.2.2.1⟩

theorem overlaps_value_checked_eq {V : Type} {c : V → V → Ordering} {r : RangeB V} {v : V}
    (h1 : ov_stop c r v = .lt → ov_start c r v = .lt)
    (h2 : ov_start c r v = .gt → ov_stop c r v = .gt) :
    overlaps_value_checked c r v = some (overlaps_value c r v) := by
  cases hs : ov_start c r v <;> cases he : ov_stop c r v <;>
    simp_all [overlaps_value_checked, overlaps_value]

/-- C5: the overlap classification never fails. `overlaps` and
`overlaps_value` are total functions of the embedding, and on every
well-formed range (end not preceding start under a valid total order) the
`debug_assert_eq!` conditions inside `overlaps_value` hold: an end
comparison of Less forces a start comparison of Less, and a start comparison
of Greater forces an end comparison of Greater, so the assertion-checked
variant returns `some` of the plain result. -/
theorem overlaps_value_total {V : Type} {c : V → V → Ordering} (vo : ValidOrder c)
    (r : RangeB V) (hr : validRange c r = true) (v : V) :
    overlaps_value_checked c r v = some (overlaps_value c r v)
    ∧ (ov_stop c r v = .lt → ov_start c r v = .lt)
    ∧ (ov_start c r v = .gt → ov_stop c r v = .gt) := by
  obtain ⟨s, e⟩ := r
  have himp : (ov_stop c (s, e) v = .lt → ov_start c (s, e) v = .lt)
      ∧ (ov_start c (s, e) v = .gt → ov_stop c (s, e) v = .gt) := by
    cases s <;> cases e <;>
      simp only [ov_start, ov_stop, validRange, decide_eq_true_eq] at hr ⊢
    case unbounded.unbounded => decide
    case unbounded.included b =>
      exact ⟨fun _ => trivial, fun h => absurd h (by decide)⟩
    case unbounded.excluded b =>
      exact ⟨fun _ => trivial, fun h => absurd h (by decide)⟩
    case included.unbounded a =>
      exact ⟨fun h => absurd h (by decide), fun _ => trivial⟩
    case excluded.unbounded a =>
      exact ⟨fun h => absurd h (by decide), fun _ => trivial⟩
    case included.included a b =>
      refine ⟨fun h => vo.lt_of_le_of_lt hr h, fun h => ?_⟩
      have hv : c v a = .lt := vo.gt_iff.mp h
      exact vo.gt_iff.mpr (vo.lt_of_lt_of_le hv hr)
    case included.excluded a b =>
      constructor
      · intro h
        have hbv : c b v ≠ .gt := by
          intro hg; rw [hg] at h; exact absurd h (by decide)
        exact vo.lt_of_lt_of_le hr hbv
      · intro h
        have hva : c v a = .lt := vo.gt_iff.mp h
        have hvb : c v b = .lt := vo.lt_trans v a b hva hr
        have hbv : c b v = .gt := vo.gt_iff.mpr hvb
        rw [hbv]
    case excluded.included a b =>
      constructor
      · intro h
        have hav : c a v = .lt := vo.lt_trans a b v hr h
        rw [hav]
      · intro h
        have hav : c a v ≠ .lt := by
          intro hl; rw [hl] at h; exact absurd h (by decide)
        have hva : c v a ≠ .gt := by
          rw [vo.symm a v]
          cases ha : c a v
          · exact absurd ha hav
          · decide
          · decide
        have hvb : c v b = .lt := vo.lt_of_le_of_lt hva hr
        exact vo.gt_iff.mpr hvb
    case excluded.excluded a b =>
      constructor
      · intro h
        have hbv : c b v ≠ .gt := by
          intro hg; rw [hg] at h; exact absurd h (by decide)
        have hav : c a v = .lt := vo.lt_of_lt_of_le hr hbv
        rw [hav]
      · intro h
        have hav : c a v ≠ .lt := by
          intro hl; rw [hl] at h; exact absurd h (by decide)
        have hva : c v a ≠ .gt := by
          rw [vo.symm a v]
          cases ha : c a v
          · exact absurd ha hav
          · decide
          · decide
        have hvb : c v b = .lt := vo.lt_of_le_of_lt hva hr
        have hbv : c b v = .gt := vo.gt_iff.mpr hvb
        rw [hbv]
  exact ⟨overlaps_value_checked_eq himp.1 himp.2, himp.1, himp.2⟩

/-- C5 witness: the assertion-safety of `overlaps_value`, instantiated for
the integer range `[1,3)` at the value `5`. -/
theorem overlaps_value_total_witness :
    validRange intCmp (CBound.included (1:Int), CBound.excluded 3) = true
    ∧ (overlaps_value_checked intCmp (CBound.included (1:Int), CBound.excluded 3) 5
        = some (overlaps_value intCmp (CBound.included (1:Int), CBound.excluded 3) 5)
      ∧ (ov_stop intCmp (CBound.included (1:Int), CBound.excluded 3) 5 = .lt →
          ov_start intCmp (CBound.included (1:Int), CBound.excluded 3) 5 = .lt)
      ∧ (ov_start intCmp (CBound.included (1:Int), CBound.excluded 3) 5 = .gt →
          ov_stop intCmp (CBound.included (1:Int), CBound.excluded 3) 5 = .gt)) :=
  ⟨by decide,
    overlaps_value_total validOrder_intCmp
      (CBound.included (1:Int), CBound.excluded 3) (by decide) 5⟩

/-- Inner loop of `Merge::poll_next` (`src/stream/merge.rs`) specialised to
finite streams: process the right stream against the current left pending
value `a`, with `rest` the continuation merging the remaining left stream.
A pending item buffered across polls is equivalent to pushing it back onto
its source, since only successfully pulled values are ever buffered. -/
def mergeGo {V : Type} (c : V → V → Ordering) (a : V) (rest : List V → List V) :
    List V → List V
  | [] => a :: rest []
  | b :: r =>
    match c a b with
    | .eq => a :: rest r
    | .lt => a :: rest (b :: r)
    | .gt => b :: mergeGo c a rest r

/-- Models `merge` (`src/stream/merge.rs`) over finite streams: on `Equal`
emit the left value and discard both, on `Less` emit left, on `Greater` emit
right; when one side is exhausted, pass the other through. -/
def mergeList {V : Type} (c : V → V → Ordering) : List V → List V → List V
  | [], r => r
  | a :: l, r => mergeGo c a (mergeList c l) r

/-- Inner loop of `Diff::poll_next` (`src/stream/diff.rs`) specialised to
finite streams: process the right stream against the current left pending
value `a`, with `rest` the continuation differencing the remaining left
stream. -/
def diffGo {V : Type} (c : V → V → Ordering) (a : V) (rest : List V → List V) :
    List V → List V
  | [] => a :: rest []
  | b :: r =>
    match c a b with
    | .eq => rest r
    | .lt => a :: rest (b :: r)
    | .gt => diffGo c a rest r

/-- Models `diff` (`src/stream/diff.rs`) over finite streams: on `Equal`
drop both and continue, on `Less` emit left, on `Greater` drop the right
pending value and continue; when the right side is exhausted, pass the rest
of the left side through; terminate as soon as the left side is exhausted. -/
def diffList {V : Type} (c : V → V → Ordering) : List V → List V → List V
  | [], _ => []
  | a :: l, r => diffGo c a (diffList c l) r

/-- Sorted ascending under the collator, ties allowed: the spec's
precondition on the combinator inputs. -/
def sortedAsc {V : Type} (c : V → V → Ordering) (l : List V) : Prop :=
  l.Pairwise (fun x y => c x y ≠ .gt)

/-- Strictly sorted under the collator: no two elements compare `Equal`. -/
def strictSorted {V : Type} (c : V → V → Ordering) (l : List V) : Prop :=
  l.Pairwise (fun x y => c x y = .lt)

instance {V : Type} (c : V → V → Ordering) (l : List V) : Decidable (sortedAsc c l) :=
  l.instDecidablePairwise

instance {V : Type} (c : V → V → Ordering) (l : List V) : Decidable (strictSorted c l) :=
  l.instDecidablePairwise

theorem mergeList_nil_right {V : Type} (c : V → V → Ordering) (l : List V) :
    mergeList c l [] = l := by
  induction l with
  | nil => rfl
  | cons a l ih => simp [mergeList, mergeGo, ih]

theorem mergeList_eq {V : Type} {c : V → V → Ordering} {a b : V} (l r : List V)
    (h : c a b = .eq) : mergeList c (a :: l) (b :: r) = a :: mergeList c l r := by
  simp [mergeList, mergeGo, h]

theorem mergeList_lt {V : Type} {c : V → V → Ordering} {a b : V} (l r : List V)
    (h : c a b = .lt) : mergeList c (a :: l) (b :: r) = a :: mergeList c l (b :: r) := by
  simp [mergeList, mergeGo, h]

theorem mergeList_gt {V : Type} {c : V → V → Ordering} {a b : V} (l r : List V)
    (h : c a b = .gt) : mergeList c (a :: l) (b :: r) = b :: mergeList c (a :: l) r := by
  simp only [mergeList, mergeGo, h]

theorem diffList_nil_right {V : Type} (c : V → V → Ordering) (l : List V) :
    diffList c l [] = l := by
  induction l with
  | nil => rfl
  | cons a l ih => simp [diffList, diffGo, ih]

theorem diffList_eq {V : Type} {c : V → V → Ordering} {a b : V} (l r : List V)
    (h : c a b = .eq) : diffList c (a :: l) (b :: r) = diffList c l r := by
  simp [diffList, diffGo, h]

theorem diffList_lt {V : Type} {c : V → V → Ordering} {a b : V} (l r : List V)
    (h : c a b = .lt) : diffList c (a :: l) (b :: r) = a :: diffList c l (b :: r) := by
  simp [diffList, diffGo, h]

theorem diffList_gt {V : Type} {c : V → V → Ordering} {a b : V} (l r : List V)
    (h : c a b = .gt) : diffList c (a :: l) (b :: r) = diffList c (a :: l) r := by
  simp only [diffList, diffGo, h]

/-- Sanity check: the embedded `merge` reproduces `test_merge` from
`src/stream/mod.rs`. -/
theorem mergeList_matches_crate_test :
    mergeList intCmp [1, 3, 5, 7, 8, 9, 20] [2, 4, 6, 8, 9, 10, 11, 12]
      = [1, 2, 3, 4, 5, 6, 7, 8, 9, 10, 11, 12, 20] := by decide

/-- Sanity check: the embedded `diff` reproduces `test_diff` from
`src/stream/mod.rs`. -/
theorem diffList_matches_crate_test :
    diffList intCmp [1, 3, 5, 7, 8, 9, 20] [2, 4, 5, 6, 8, 9] = [1, 3, 7, 20] := by decide

theorem ValidOrder.le_of_eq_of_le {V : Type} {c : V → V → Ordering} (vo : ValidOrder c)
    {a b d : V} (h1 : c a b = .eq) (h2 : c b d ≠ .gt) : c a d ≠ .gt := by
  cases hbd : c b d
  · simp [vo.eq_lt a b d h1 hbd]
  · simp [vo.eq_trans a b d h1 hbd]
  · exact absurd hbd h2

theorem mergeList_mem {V : Type} (c : V → V → Ordering) :
    ∀ (l r : List V) (z : V), z ∈ mergeList c l r → z ∈ l ∨ z ∈ r
  | [], _, _ => fun h => Or.inr h
  | a :: l, [], z => fun h => by
    rw [mergeList_nil_right] at h
    exact Or.inl h
  | a :: l, b :: r, z => fun h => by
    cases hc : c a b
    case lt =>
      rw [mergeList_lt l r hc] at h
      rcases List.mem_cons.mp h with rfl | h'
      · exact Or.inl (List.mem_cons_self _ _)
      · rcases mergeList_mem c l (b :: r) z h' with h'' | h''
        · exact Or.inl (List.mem_cons_of_mem a h'')
        · exact Or.inr h''
    case eq =>
      rw [mergeList_eq l r hc] at h
      rcases List.mem_cons.mp h with rfl | h'
      · exact Or.inl (List.mem_cons_self _ _)
      · rcases mergeList_mem c l r z h' with h'' | h''
        · exact Or.inl (List.mem_cons_of_mem a h'')
        · exact Or.inr (List.mem_cons_of_mem b h'')
    case gt =>
      rw [mergeList_gt l r hc] at h
      rcases List.mem_cons.mp h with rfl | h'
      · exact Or.inr (List.mem_cons_self _ _)
      · rcases mergeList_mem c (a :: l) r z h' with h'' | h''
        · exact Or.inl h''
        · exact Or.inr (List.mem_cons_of_mem b h'')
termination_by l r => l.length + r.length

theorem mergeList_sorted {V : Type} {c : V → V → Ordering} (vo : ValidOrder c) :
    ∀ (l r : List V), sortedAsc c l → sortedAsc c r → sortedAsc c (mergeList c l r)
  | [], _ => fun _ hr => hr
  | a :: l, [] => fun hl _ => by
    rw [mergeList_nil_right]
    exact hl
  | a :: l, b :: r => fun hl hr => by
    rcases List.pairwise_cons.mp hl with ⟨ha, hl'⟩
    rcases List.pairwise_cons.mp hr with ⟨hb, hr'⟩
    cases hc : c a b
    case lt =>
      rw [mergeList_lt l r hc]
      refine List.pairwise_cons.mpr ⟨?_, mergeList_sorted vo l (b :: r) hl' hr⟩
      intro z hz
      rcases mergeList_mem c l (b :: r) z hz with h' | h'
      · exact ha z h'
      · rcases List.mem_cons.mp h' with rfl | h''
        · simp [hc]
        · simp [vo.lt_of_lt_of_le hc (hb z h'')]
    case eq =>
      rw [mergeList_eq l r hc]
      refine List.pairwise_cons.mpr ⟨?_, mergeList_sorted vo l r hl' hr'⟩
      intro z hz
      rcases mergeList_mem c l r z hz with h' | h'
      · exact ha z h'
      · exact vo.le_of_eq_of_le hc (hb z h')
    case gt =>
      rw [mergeList_gt l r hc]
      refine List.pairwise_cons.mpr ⟨?_, mergeList_sorted vo (a :: l) r hl hr'⟩
      intro z hz
      have hba : c b a = .lt := vo.gt_iff.mp hc
      rcases mergeList_mem c (a :: l) r z hz with h' | h'
      · rcases List.mem_cons.mp h' with rfl | h''
        · simp [hba]
        · simp [vo.lt_of_lt_of_le hba (ha z h'')]
      · exact hb z h'
termination_by l r => l.length + r.length

theorem mergeList_length_le {V : Type} (c : V → V → Ordering) :
    ∀ (l r : List V), (mergeList c l r).length ≤ l.length + r.length
  | [], r => by simp [mergeList]
  | a :: l, [] => by simp [mergeList_nil_right]
  | a :: l, b :: r => by
    cases hc : c a b
    case lt =>
      rw [mergeList_lt l r hc]
      have := mergeList_length_le c l (b :: r)
      simp only [List.length_cons] at *
      omega
    case eq =>
      rw [mergeList_eq l r hc]
      have := mergeList_length_le c l r
      simp only [List.length_cons] at *
      omega
    case gt =>
      rw [mergeList_gt l r hc]
      have := mergeList_length_le c (a :: l) r
      simp only [List.length_cons] at *
      omega
termination_by l r => l.length + r.length

theorem mergeList_length_lt {V : Type} {c : V → V → Ordering} (vo : ValidOrder c) :
    ∀ (l r : List V), sortedAsc c l → sortedAsc c r →
      (∃ x ∈ l, ∃ y ∈ r, c x y = .eq) →
      (mergeList c l r).length < l.length + r.length
  | [], r => fun _ _ hex => by simp at hex
  | a :: l, [] => fun _ _ hex => by simp at hex
  | a :: l, b :: r => fun hl hr hex => by
    rcases List.pairwise_cons.mp hl with ⟨ha, hl'⟩
    rcases List.pairwise_cons.mp hr with ⟨hb, hr'⟩
    cases hc : c a b
    case eq =>
      rw [mergeList_eq l r hc]
      have := mergeList_length_le c l r
      simp only [List.length_cons] at *
      omega
    case lt =>
      rw [mergeList_lt l r hc]
      obtain ⟨x, hx, y, hy, hxy⟩ := hex
      rcases List.mem_cons.mp hx with rfl | hx'
      · rcases List.mem_cons.mp hy with rfl | hy'
        · exact absurd hxy (by simp [hc])
        · have hlt : c x y = .lt := vo.lt_of_lt_of_le hc (hb y hy')
          exact absurd hxy (by simp [hlt])
      · have hrec := mergeList_length_lt vo l (b :: r) hl' hr ⟨x, hx', y, hy, hxy⟩
        simp only [List.length_cons] at *
        omega
    case gt =>
      rw [mergeList_gt l r hc]
      obtain ⟨x, hx, y, hy, hxy⟩ := hex
      have hba : c b a = .lt := vo.gt_iff.mp hc
      rcases List.mem_cons.mp hy with rfl | hy'
      · rcases List.mem_cons.mp hx with rfl | hx'
        · exact absurd hxy (by simp [hc])
        · have hbx : c y x = .lt := vo.lt_of_lt_of_le hba (ha x hx')
          have hgt : c x y = .gt := vo.gt_iff.mpr hbx
          exact absurd hxy (by simp [hgt])
      · have hrec := mergeList_length_lt vo (a :: l) r hl hr' ⟨x, hx, y, hy', hxy⟩
        simp only [List.length_cons] at *
        omega
termination_by l r => l.length + r.length

theorem mergeList_length_eq {V : Type} {c : V → V → Ordering} (vo : ValidOrder c) :
    ∀ (l r : List V),
      (¬ ∃ x ∈ l, ∃ y ∈ r, c x y = .eq) →
      (mergeList c l r).length = l.length + r.length
  | [], r => fun _ => by simp [mergeList]
  | a :: l, [] => fun _ => by simp [mergeList_nil_right]
  | a :: l, b :: r => fun hno => by
    cases hc : c a b
    case eq => exact absurd ⟨a, List.mem_cons_self _ _, b, List.mem_cons_self _ _, hc⟩ hno
    case lt =>
      rw [mergeList_lt l r hc]
      have hrec := mergeList_length_eq vo l (b :: r) (fun ⟨x, hx, y, hy, hxy⟩ =>
        hno ⟨x, List.mem_cons_of_mem a hx, y, hy, hxy⟩)
      simp only [List.length_cons] at *
      omega
    case gt =>
      rw [mergeList_gt l r hc]
      have hrec := mergeList_length_eq vo (a :: l) r (fun ⟨x, hx, y, hy, hxy⟩ =>
        hno ⟨x, hx, y, List.mem_cons_of_mem b hy, hxy⟩)
      simp only [List.length_cons] at *
      omega
termination_by l r => l.length + r.length

/-- C2: for finite inputs sorted ascending under a collator that is a valid
total order, `merge` produces a sorted output of length at most the sum of
the input lengths, with equality exactly when no element of one input
compares `Equal` to an element of the other; every output element comes from
one of the inputs; and when the two pending items compare `Equal` the left
one is emitted exactly once and both are discarded. -/
theorem merge_spec {V : Type} {c : V → V → Ordering} (vo : ValidOrder c)
    (l r : List V) (hl : sortedAsc c l) (hr : sortedAsc c r) :
    sortedAsc c (mergeList c l r)
    ∧ (mergeList c l r).length ≤ l.length + r.length
    ∧ ((mergeList c l r).length = l.length + r.length ↔
        ¬ ∃ x ∈ l, ∃ y ∈ r, c x y = .eq)
    ∧ (∀ z ∈ mergeList c l r, z ∈ l ∨ z ∈ r)
    ∧ (∀ (a : V) (l' : List V) (b : V) (r' : List V), c a b = .eq →
        mergeList c (a :: l') (b :: r') = a :: mergeList c l' r') := by
  refine ⟨mergeList_sorted vo l r hl hr, mergeList_length_le c l r, ?_,
    fun z hz => mergeList_mem c l r z hz, fun a l' b r' h => mergeList_eq l' r' h⟩
  constructor
  · intro heq hex
    exact absurd heq (Nat.ne_of_lt (mergeList_length_lt vo l r hl hr hex))
  · exact fun hno => mergeList_length_eq vo l r hno

/-- C2 witness: the `merge` specification instantiated at the integer inputs
`[1,3]` and `[2,3]`. -/
theorem merge_spec_witness :
    sortedAsc intCmp [(1:Int), 3] ∧ sortedAsc intCmp [(2:Int), 3]
    ∧ (sortedAsc intCmp (mergeList intCmp [(1:Int), 3] [2, 3])
      ∧ (mergeList intCmp [(1:Int), 3] [2, 3]).length
          ≤ ([(1:Int), 3]).length + ([(2:Int), 3]).length
      ∧ ((mergeList intCmp [(1:Int), 3] [2, 3]).length
            = ([(1:Int), 3]).length + ([(2:Int), 3]).length ↔
          ¬ ∃ x ∈ [(1:Int), 3], ∃ y ∈ [(2:Int), 3], intCmp x y = .eq)
      ∧ (∀ z ∈ mergeList intCmp [(1:Int), 3] [2, 3], z ∈ [(1:Int), 3] ∨ z ∈ [(2:Int), 3])
      ∧ (∀ (a : Int) (l' : List Int) (b : Int) (r' : List Int), intCmp a b = .eq →
          mergeList intCmp (a :: l') (b :: r') = a :: mergeList intCmp l' r')) :=
  ⟨by decide, by decide, merge_spec validOrder_intCmp [1, 3] [2, 3] (by decide) (by decide)⟩

theorem diffList_filter {V : Type} {c : V → V → Ordering} (vo : ValidOrder c) :
    ∀ (l r : List V), strictSorted c l → sortedAsc c r →
      diffList c l r = l.filter (fun x => !(r.any fun y => decide (c x y = .eq)))
  | [], _ => fun _ _ => rfl
  | a :: l, [] => fun _ _ => by
    rw [diffList_nil_right]
    simp
  | a :: l, b :: r => fun hl hr => by
    rcases List.pairwise_cons.mp hl with ⟨ha, hl'⟩
    rcases List.pairwise_cons.mp hr with ⟨hb, hr'⟩
    cases hc : c a b
    case lt =>
      have hnone : ((b :: r).any fun y => decide (c a y = Ordering.eq)) = false := by
        simp only [List.any_eq_false, decide_eq_true_eq]
        intro y hy
        rcases List.mem_cons.mp hy with rfl | hy'
        · simp [hc]
        · simp [vo.lt_of_lt_of_le hc (hb y hy')]
      rw [diffList_lt l r hc, diffList_filter vo l (b :: r) hl' hr]
      simp only [List.filter_cons, hnone, Bool.not_false, eq_self_iff_true, if_true]
    case eq =>
      have hbin : ((b :: r).any fun y => decide (c a y = Ordering.eq)) = true := by
        simp only [List.any_eq_true, decide_eq_true_eq]
        exact ⟨b, List.mem_cons_self _ _, hc⟩
      have hcongr : ∀ x ∈ l,
          (!(r.any fun y => decide (c x y = Ordering.eq)))
            = (!((b :: r).any fun y => decide (c x y = Ordering.eq))) := by
        intro x hx
        have hax : c a x = .lt := ha x hx
        have hxb : c x b ≠ .eq := by
          intro hxb
          have hxa : c x a = .eq := vo.eq_trans x b a hxb (vo.eq_symm hc)
          have : c a x = .eq := vo.eq_symm hxa
          simp [hax] at this
        simp [List.any_cons, decide_eq_false hxb]
      rw [diffList_eq l r hc, diffList_filter vo l r hl' hr', List.filter_cons]
      simp only [hbin, Bool.not_true, if_false, Bool.false_eq_true, ↓reduceIte]
      exact List.filter_congr hcongr
    case gt =>
      have hba : c b a = .lt := vo.gt_iff.mp hc
      have hcongr : ∀ x ∈ a :: l,
          (!(r.any fun y => decide (c x y = Ordering.eq)))
            = (!((b :: r).any fun y => decide (c x y = Ordering.eq))) := by
        intro x hx
        have hxb : c x b ≠ .eq := by
          rcases List.mem_cons.mp hx with rfl | hx'
          · simp [hc]
          · have hbx : c b x = .lt := vo.lt_trans b a x hba (ha x hx')
            have : c x b = .gt := vo.gt_iff.mpr hbx
            simp [this]
        simp [List.any_cons, decide_eq_false hxb]
      rw [diffList_gt l r hc, diffList_filter vo (a :: l) r hl hr']
      exact List.filter_congr hcongr
termination_by l r => l.length + r.length

/-- C3 counterexample: with ties allowed in the (non-strictly) ascending
left input, `diff` does not compute the claimed filter. For `left = [1,1]`
and `right = [1]` under the natural-order collator, the first `1` of `left`
is matched against the only `1` of `right` and both are discarded, after
which `right` is exhausted, so the second `1` is emitted: the output is
`[1]`, although every element of `left` has an `Equal` counterpart in
`right` and the claimed output is `[]`. -/
theorem diff_filter_counterexample :
    ValidOrder intCmp
    ∧ sortedAsc intCmp [(1:Int), 1]
    ∧ sortedAsc intCmp [(1:Int)]
    ∧ diffList intCmp [(1:Int), 1] [1] = [1]
    ∧ List.filter (fun x => !(([(1:Int)]).any fun y => decide (intCmp x y = .eq)))
        [(1:Int), 1] = []
    ∧ diffList intCmp [(1:Int), 1] [1]
      ≠ List.filter (fun x => !(([(1:Int)]).any fun y => decide (intCmp x y = .eq)))
          [(1:Int), 1] :=
  ⟨validOrder_intCmp, by decide, by decide, by decide, by decide, by decide⟩

/-- C3 (amended): for a left input with no internal ties (strictly sorted
under the collator) and a right input sorted ascending, `diff` emits exactly
the elements of the left input that compare `Equal` to no element of the
right input, in their original relative order; and it terminates as soon as
the left input is exhausted, whatever remains of the right input. -/
theorem diff_spec {V : Type} {c : V → V → Ordering} (vo : ValidOrder c)
    (l r : List V) (hl : strictSorted c l) (hr : sortedAsc c r) :
    diffList c l r = l.filter (fun x => !(r.any fun y => decide (c x y = .eq)))
    ∧ (∀ r' : List V, diffList c [] r' = []) :=
  ⟨diffList_filter vo l r hl hr, fun _ => rfl⟩

/-- C3 witness: the amended `diff` specification instantiated at the integer
inputs `[1,3]` and `[2,3]`. -/
theorem diff_spec_witness :
    strictSorted intCmp [(1:Int), 3] ∧ sortedAsc intCmp [(2:Int), 3]
    ∧ (diffList intCmp [(1:Int), 3] [2, 3]
        = List.filter (fun x => !(([(2:Int), 3]).any fun y => decide (intCmp x y = .eq)))
            [(1:Int), 3]
      ∧ (∀ r' : List Int, diffList intCmp [] r' = [])) :=
  ⟨by decide, by decide, diff_spec validOrder_intCmp [1, 3] [2, 3] (by decide) (by decide)⟩

/-- Models Rust's `Result<V, E>`: the items of a `TryStream`. -/
inductive RItem (V E : Type) where
  | ok (v : V) : RItem V E
  | err (e : E) : RItem V E
deriving DecidableEq

/-- An output sequence of a `try_*` combinator is fail-fast well-formed when
any failure it contains is its final element. -/
def wellFormedOut {V E : Type} : List (RItem V E) → Bool
  | [] => true
  | [RItem.err _] => true
  | RItem.err _ :: _ :: _ => false
  | RItem.ok _ :: t => wellFormedOut t

/-- Tail pass-through of `TryMerge::poll_next` (`src/stream/try_merge.rs`)
once the left stream is exhausted: right items are forwarded one per poll;
pulling a failure yields it and ends the output. -/
def tryTail {V E : Type} : List (RItem V E) → List (RItem V E)
  | [] => []
  | RItem.err e :: _ => [RItem.err e]
  | RItem.ok b :: r => RItem.ok b :: tryTail r

/-- Inner loop of `TryMerge::poll_next` (`src/stream/try_merge.rs`)
specialised to finite streams: process the right stream against the current
left pending value `a`, with `rest` the continuation merging the remaining
left stream. Pulling a failure from the right yields it immediately and ends
the output. -/
def tryMergeGo {V E : Type} (c : V → V → Ordering) (a : V)
    (rest : List (RItem V E) → List (RItem V E)) :
    List (RItem V E) → List (RItem V E)
  | [] => RItem.ok a :: rest []
  | RItem.err e :: _ => [RItem.err e]
  | RItem.ok b :: r =>
    match c a b with
    | .eq => RItem.ok a :: rest r
    | .lt => RItem.ok a :: rest (RItem.ok b :: r)
    | .gt => RItem.ok b :: tryMergeGo c a rest r

/-- Models `try_merge` (`src/stream/try_merge.rs`) over finite fallible
streams. The left stream is polled first in each step, so a failure pulled
from the left surfaces without consuming from the right in that step. -/
def tryMergeList {V E : Type} (c : V → V → Ordering) :
    List (RItem V E) → List (RItem V E) → List (RItem V E)
  | [], r => tryTail r
  | RItem.err e :: _, _ => [RItem.err e]
  | RItem.ok a :: l, r => tryMergeGo c a (tryMergeList c l) r

/-- Inner loop of `TryDiff::poll_next` (`src/stream/try_diff.rs`)
specialised to finite streams. -/
def tryDiffGo {V E : Type} (c : V → V → Ordering) (a : V)
    (rest : List (RItem V E) → List (RItem V E)) :
    List (RItem V E) → List (RItem V E)
  | [] => RItem.ok a :: rest []
  | RItem.err e :: _ => [RItem.err e]
  | RItem.ok b :: r =>
    match c a b with
    | .eq => rest r
    | .lt => RItem.ok a :: rest (RItem.ok b :: r)
    | .gt => tryDiffGo c a rest r

/-- Models `try_diff` (`src/stream/try_diff.rs`) over finite fallible
streams. When the left stream is exhausted the combinator still tops up the
right pending slot once before deciding, so a failure at the head of the
remaining right stream surfaces; otherwise the output ends. -/
def tryDiffList {V E : Type} (c : V → V → Ordering) :
    List (RItem V E) → List (RItem V E) → List (RItem V E)
  | [], [] => []
  | [], RItem.err e :: _ => [RItem.err e]
  | [], RItem.ok _ :: _ => []
  | RItem.err e :: _, _ => [RItem.err e]
  | RItem.ok a :: l, r => tryDiffGo c a (tryDiffList c l) r

theorem tryTail_wf {V E : Type} : ∀ r : List (RItem V E), wellFormedOut (tryTail r) = true
  | [] => rfl
  | RItem.err e :: r => rfl
  | RItem.ok b :: r => by simp [tryTail, wellFormedOut, tryTail_wf r]

theorem tryTail_err {V E : Type} : ∀ (r : List (RItem V E)) (e : E),
    RItem.err e ∈ tryTail r → RItem.err e ∈ r
  | [], e => fun h => absurd h (by simp [tryTail])
  | RItem.err e' :: r, e => fun h => by
    simp only [tryTail, List.mem_singleton] at h
    rw [h]
    exact List.mem_cons_self _ _
  | RItem.ok b :: r, e => fun h => by
    simp only [tryTail, List.mem_cons] at h
    rcases h with h | h
    · exact absurd h (by simp)
    · exact List.mem_cons_of_mem _ (tryTail_err r e h)

theorem tryTail_pure {V E : Type} : ∀ rv : List V,
    tryTail (E := E) (rv.map RItem.ok) = rv.map RItem.ok
  | [] => rfl
  | b :: rv => by simp [tryTail, tryTail_pure rv]

theorem tryMergeGo_wf {V E : Type} (c : V → V → Ordering) (a : V)
    (rest : List (RItem V E) → List (RItem V E))
    (hrest : ∀ x, wellFormedOut (rest x) = true) :
    ∀ r, wellFormedOut (tryMergeGo c a rest r) = true
  | [] => by simp [tryMergeGo, wellFormedOut, hrest []]
  | RItem.err e :: r => rfl
  | RItem.ok b :: r => by
    cases hc : c a b <;>
      simp [tryMergeGo, hc, wellFormedOut, hrest, tryMergeGo_wf c a rest hrest r]

theorem tryMergeList_wf {V E : Type} (c : V → V → Ordering) :
    ∀ l r : List (RItem V E), wellFormedOut (tryMergeList c l r) = true
  | [], r => tryTail_wf r
  | RItem.err e :: l, r => rfl
  | RItem.ok a :: l, r =>
    tryMergeGo_wf c a (tryMergeList c l) (fun x => tryMergeList_wf c l x) r

theorem tryMergeGo_err {V E : Type} (c : V → V → Ordering) (a : V)
    (rest : List (RItem V E) → List (RItem V E)) (P : E → Prop)
    (hrest : ∀ x e, RItem.err e ∈ rest x → P e ∨ RItem.err e ∈ x) :
    ∀ (r : List (RItem V E)) (e : E),
      RItem.err e ∈ tryMergeGo c a rest r → P e ∨ RItem.err e ∈ r
  | [], e => fun h => by
    simp only [tryMergeGo, List.mem_cons] at h
    rcases h with h | h
    · exact absurd h (by simp)
    · rcases hrest [] e h with hP | hmem
      · exact Or.inl hP
      · exact absurd hmem (by simp)
  | RItem.err e' :: r, e => fun h => by
    simp only [tryMergeGo, List.mem_singleton] at h
    rw [h]
    exact Or.inr (List.mem_cons_self _ _)
  | RItem.ok b :: r, e => fun h => by
    cases hc : c a b
    case eq =>
      rw [show tryMergeGo c a rest (RItem.ok b :: r) = RItem.ok a :: rest r by
        simp [tryMergeGo, hc]] at h
      rcases List.mem_cons.mp h with h | h
      · exact absurd h (by simp)
      · rcases hrest r e h with hP | hmem
        · exact Or.inl hP
        · exact Or.inr (List.mem_cons_of_mem _ hmem)
    case lt =>
      rw [show tryMergeGo c a rest (RItem.ok b :: r) = RItem.ok a :: rest (RItem.ok b :: r) by
        simp [tryMergeGo, hc]] at h
      rcases List.mem_cons.mp h with h | h
      · exact absurd h (by simp)
      · rcases hrest (RItem.ok b :: r) e h with hP | hmem
        · exact Or.inl hP
        · rcases List.mem_cons.mp hmem with h' | h'
          · exact absurd h' (by simp)
          · exact Or.inr (List.mem_cons_of_mem _ h')
    case gt =>
      rw [show tryMergeGo c a rest (RItem.ok b :: r) = RItem.ok b :: tryMergeGo c a rest r by
        simp only [tryMergeGo, hc]] at h
      rcases List.mem_cons.mp h with h | h
      · exact absurd h (by simp)
      · rcases tryMergeGo_err c a rest P hrest r e h with hP | hmem
        · exact Or.inl hP
        · exact Or.inr (List.mem_cons_of_mem _ hmem)

theorem tryMergeList_err {V E : Type} (c : V → V → Ordering) :
    ∀ (l r : List (RItem V E)) (e : E),
      RItem.err e ∈ tryMergeList c l r → RItem.err e ∈ l ∨ RItem.err e ∈ r
  | [], r, e => fun h => Or.inr (tryTail_err r e h)
  | RItem.err e' :: l, r, e => fun h => by
    simp only [tryMergeList, List.mem_singleton] at h
    rw [h]
    exact Or.inl (List.mem_cons_self _ _)
  | RItem.ok a :: l, r, e => fun h => by
    rcases tryMergeGo_err c a (tryMergeList c l) (fun e => RItem.err e ∈ l)
        (fun x e hx => tryMergeList_err c l x e hx) r e h with hP | hmem
    · exact Or.inl (List.mem_cons_of_mem _ hP)
    · exact Or.inr hmem

theorem tryMergeGo_pure {V E : Type} (c : V → V → Ordering) (a : V)
    (rest : List (RItem V E) → List (RItem V E)) (rest0 : List V → List V)
    (hrest : ∀ x : List V, rest (x.map RItem.ok) = (rest0 x).map RItem.ok) :
    ∀ rv : List V,
      tryMergeGo c a rest (rv.map RItem.ok) = (mergeGo c a rest0 rv).map RItem.ok
  | [] => by
    have h0 := hrest []
    simp only [List.map_nil] at h0
    simp [tryMergeGo, mergeGo, h0]
  | b :: rv => by
    cases hc : c a b
    case eq => simp [tryMergeGo, mergeGo, hc, hrest rv]
    case lt =>
      have := hrest (b :: rv)
      simp only [List.map_cons] at this
      simp [tryMergeGo, mergeGo, hc, this]
    case gt => simp [tryMergeGo, mergeGo, hc, tryMergeGo_pure c a rest rest0 hrest rv]

theorem tryMergeList_pure {V E : Type} (c : V → V → Ordering) :
    ∀ lv rv : List V,
      tryMergeList (E := E) c (lv.map RItem.ok) (rv.map RItem.ok)
        = (mergeList c lv rv).map RItem.ok
  | [], rv => tryTail_pure rv
  | a :: lv, rv =>
    tryMergeGo_pure c a (tryMergeList c (lv.map RItem.ok)) (mergeList c lv)
      (fun x => tryMergeList_pure c lv x) rv

theorem tryDiffGo_wf {V E : Type} (c : V → V → Ordering) (a : V)
    (rest : List (RItem V E) → List (RItem V E))
    (hrest : ∀ x, wellFormedOut (rest x) = true) :
    ∀ r, wellFormedOut (tryDiffGo c a rest r) = true
  | [] => by simp [tryDiffGo, wellFormedOut, hrest []]
  | RItem.err e :: r => rfl
  | RItem.ok b :: r => by
    cases hc : c a b <;>
      simp [tryDiffGo, hc, wellFormedOut, hrest, tryDiffGo_wf c a rest hrest r]

theorem tryDiffList_wf {V E : Type} (c : V → V → Ordering) :
    ∀ l r : List (RItem V E), wellFormedOut (tryDiffList c l r) = true
  | [], [] => rfl
  | [], RItem.err e :: r => rfl
  | [], RItem.ok b :: r => rfl
  | RItem.err e :: l, r => rfl
  | RItem.ok a :: l, r =>
    tryDiffGo_wf c a (tryDiffList c l) (fun x => tryDiffList_wf c l x) r

theorem tryDiffGo_err {V E : Type} (c : V → V → Ordering) (a : V)
    (rest : List (RItem V E) → List (RItem V E)) (P : E → Prop)
    (hrest : ∀ x e, RItem.err e ∈ rest x → P e ∨ RItem.err e ∈ x) :
    ∀ (r : List (RItem V E)) (e : E),
      RItem.err e ∈ tryDiffGo c a rest r → P e ∨ RItem.err e ∈ r
  | [], e => fun h => by
    simp only [tryDiffGo, List.mem_cons] at h
    rcases h with h | h
    · exact absurd h (by simp)
    · rcases hrest [] e h with hP | hmem
      · exact Or.inl hP
      · exact absurd hmem (by simp)
  | RItem.err e' :: r, e => fun h => by
    simp only [tryDiffGo, List.mem_singleton] at h
    rw [h]
    exact Or.inr (List.mem_cons_self _ _)
  | RItem.ok b :: r, e => fun h => by
    cases hc : c a b
    case eq =>
      rw [show tryDiffGo c a rest (RItem.ok b :: r) = rest r by
        simp [tryDiffGo, hc]] at h
      rcases hrest r e h with hP | hmem
      · exact Or.inl hP
      · exact Or.inr (List.mem_cons_of_mem _ hmem)
    case lt =>
      rw [show tryDiffGo c a rest (RItem.ok b :: r) = RItem.ok a :: rest (RItem.ok b :: r) by
        simp [tryDiffGo, hc]] at h
      rcases List.mem_cons.mp h with h | h
      · exact absurd h (by simp)
      · rcases hrest (RItem.ok b :: r) e h with hP | hmem
        · exact Or.inl hP
        · rcases List.mem_cons.mp hmem with h' | h'
          · exact absurd h' (by simp)
          · exact Or.inr (List.mem_cons_of_mem _ h')
    case gt =>
      rw [show tryDiffGo c a rest (RItem.ok b :: r) = tryDiffGo c a rest r by
        simp only [tryDiffGo, hc]] at h
      rcases tryDiffGo_err c a rest P hrest r e h with hP | hmem
      · exact Or.inl hP
      · exact Or.inr (List.mem_cons_of_mem _ hmem)

theorem tryDiffList_err {V E : Type} (c : V → V → Ordering) :
    ∀ (l r : List (RItem V E)) (e : E),
      RItem.err e ∈ tryDiffList c l r → RItem.err e ∈ l ∨ RItem.err e ∈ r
  | [], [], e => fun h => absurd h (by simp [tryDiffList])
  | [], RItem.err e' :: r, e => fun h => by
    simp only [tryDiffList, List.mem_singleton] at h
    rw [h]
    exact Or.inr (List.mem_cons_self _ _)
  | [], RItem.ok b :: r, e => fun h => absurd h (by simp [tryDiffList])
  | RItem.err e' :: l, r, e => fun h => by
    simp only [tryDiffList, List.mem_singleton] at h
    rw [h]
    exact Or.inl (List.mem_cons_self _ _)
  | RItem.ok a :: l, r, e => fun h => by
    rcases tryDiffGo_err c a (tryDiffList c l) (fun e => RItem.err e ∈ l)
        (fun x e hx => tryDiffList_err c l x e hx) r e h with hP | hmem
    · exact Or.inl (List.mem_cons_of_mem _ hP)
    · exact Or.inr hmem

theorem tryDiffGo_pure {V E : Type} (c : V → V → Ordering) (a : V)
    (rest : List (RItem V E) → List (RItem V E)) (rest0 : List V → List V)
    (hrest : ∀ x : List V, rest (x.map RItem.ok) = (rest0 x).map RItem.ok) :
    ∀ rv : List V,
      tryDiffGo c a rest (rv.map RItem.ok) = (diffGo c a rest0 rv).map RItem.ok
  | [] => by
    have h0 := hrest []
    simp only [List.map_nil] at h0
    simp [tryDiffGo, diffGo, h0]
  | b :: rv => by
    cases hc : c a b
    case eq => simp [tryDiffGo, diffGo, hc, hrest rv]
    case lt =>
      have := hrest (b :: rv)
      simp only [List.map_cons] at this
      simp [tryDiffGo, diffGo, hc, this]
    case gt => simp [tryDiffGo, diffGo, hc, tryDiffGo_pure c a rest rest0 hrest rv]

theorem tryDiffList_pure {V E : Type} (c : V → V → Ordering) :
    ∀ lv rv : List V,
      tryDiffList (E := E) c (lv.map RItem.ok) (rv.map RItem.ok)
        = (diffList c lv rv).map RItem.ok
  | [], [] => rfl
  | [], b :: rv => rfl
  | a :: lv, rv =>
    tryDiffGo_pure c a (tryDiffList c (lv.map RItem.ok)) (diffList c lv)
      (fun x => tryDiffList_pure c lv x) rv

/-- C1: failure propagation of `try_merge` and `try_diff`. Any output
sequence is fail-fast well-formed (a failure, if present, is the final
element, so the output is exactly the items produced before the failing
pull, then that failure, then nothing); any surfaced failure is verbatim a
failure of one of the inputs; a failure at the head of the left input
surfaces immediately without consuming anything from the right input in that
step; and on failure-free inputs both combinators agree with their plain
counterparts, so the items before a failure are exactly the ones the plain
combinator would have produced. -/
theorem try_combinators_fail_fast {V E : Type} (c : V → V → Ordering) :
    (∀ l r : List (RItem V E), wellFormedOut (tryMergeList c l r) = true)
    ∧ (∀ l r : List (RItem V E), wellFormedOut (tryDiffList c l r) = true)
    ∧ (∀ (l r : List (RItem V E)) (e : E),
        RItem.err e ∈ tryMergeList c l r → RItem.err e ∈ l ∨ RItem.err e ∈ r)
    ∧ (∀ (l r : List (RItem V E)) (e : E),
        RItem.err e ∈ tryDiffList c l r → RItem.err e ∈ l ∨ RItem.err e ∈ r)
    ∧ (∀ (e : E) (l r : List (RItem V E)),
        tryMergeList c (RItem.err e :: l) r = [RItem.err e]
        ∧ tryDiffList c (RItem.err e :: l) r = [RItem.err e])
    ∧ (∀ lv rv : List V,
        tryMergeList (E := E) c (lv.map RItem.ok) (rv.map RItem.ok)
          = (mergeList c lv rv).map RItem.ok
        ∧ tryDiffList (E := E) c (lv.map RItem.ok) (rv.map RItem.ok)
          = (diffList c lv rv).map RItem.ok) :=
  ⟨tryMergeList_wf c, tryDiffList_wf c, tryMergeList_err c, tryDiffList_err c,
    fun _ _ _ => ⟨rfl, rfl⟩,
    fun lv rv => ⟨tryMergeList_pure c lv rv, tryDiffList_pure c lv rv⟩⟩

/-- C1 witness: the failure-propagation theorem applied to the concrete
run in which the left input of `try_diff` fails on its third pull: the
output is well-formed and the surfaced failure is verbatim the one in the
left input. -/
theorem try_combinators_fail_fast_witness :
    wellFormedOut (tryDiffList intCmp
      [RItem.ok 1, RItem.ok 3, RItem.err 7, RItem.ok 9]
      ([RItem.ok 2] : List (RItem Int Nat))) = true
    ∧ (RItem.err 7 ∈ ([RItem.ok 1, RItem.ok 3, RItem.err 7, RItem.ok 9] : List (RItem Int Nat))
      ∨ RItem.err 7 ∈ ([RItem.ok 2] : List (RItem Int Nat))) :=
  ⟨(try_combinators_fail_fast intCmp).2.1
      [RItem.ok 1, RItem.ok 3, RItem.err 7, RItem.ok 9] [RItem.ok 2],
    (try_combinators_fail_fast intCmp).2.2.2.1
      [RItem.ok 1, RItem.ok 3, RItem.err 7, RItem.ok 9] [RItem.ok 2] 7 (by decide)⟩

/-- Sanity check: in the spec's failure scenario (left fails on its third
pull) the embedded `try_diff` yields the two items produced before the
failing pull, then the failure, then nothing. -/
theorem tryDiffList_failure_scenario :
    tryDiffList intCmp [RItem.ok 1, RItem.ok 3, RItem.err 7, RItem.ok 9]
      ([RItem.ok 2] : List (RItem Int Nat))
      = [RItem.ok 1, RItem.ok 3, RItem.err 7] := by decide

/-- One fill of a pending slot, as at the top of `Merge::poll_next`
(`src/stream/merge.rs`): the updated slot, the remaining source items, and
the resulting `left_done`/`right_done` flag. A fused source is done exactly
when no items remain; a not-yet-ready source suspends the whole poll in the
Rust code (`ready!`), so a completed fill is the only way to reach the
decision phase. -/
def fillPending {V : Type} : Option V → List V → Option V × List V × Bool
  | some v, l => (some v, l, l.isEmpty)
  | none, [] => (none, [], true)
  | none, v :: l => (some v, l, false)

/-- Models `swap_value` (`src/stream/mod.rs`): extract the pending value and
empty the slot; `none` models the `debug_assert!`/`unwrap` panic on an
already-empty slot. -/
def swap_value {V : Type} : Option V → Option (V × Option V)
  | some v => some (v, none)
  | none => none

/-- The decision phase shared by `Merge::poll_next` and
`TryMerge::poll_next` after both fills: the yielded item (`none` marks the
end of the stream) together with the successor pending slots, or `none` for
the `unreachable!("both streams to merge are still pending")` branch or a
panicking extraction from an empty slot. -/
def mergeDecide {V : Type} (c : V → V → Ordering) (pl pr : Option V) (ld rd : Bool) :
    Option (Option V × Option V × Option V) :=
  if pl.isSome && pr.isSome then
    match pl, pr with
    | some a, some b =>
      match c a b with
      | .eq => some (some a, none, none)
      | .lt => some (some a, none, pr)
      | .gt => some (some b, pl, none)
    | _, _ => none
  else if rd && pl.isSome then
    match swap_value pl with
    | some (a, pl') => some (some a, pl', pr)
    | none => none
  else if ld && pr.isSome then
    match swap_value pr with
    | some (b, pr') => some (some b, pl, pr')
    | none => none
  else if ld && rd then
    some (none, pl, pr)
  else
    none

/-- One full poll step of `Merge::poll_next` from an arbitrary reachable
state (pending slots and remaining fused sources): fill both sides, then
decide. `none` models an internal panic. -/
def mergePollStep {V : Type} (c : V → V → Ordering) (pl : Option V) (l : List V)
    (pr : Option V) (r : List V) :
    Option (Option V × (Option V × List V) × (Option V × List V)) :=
  let f1 := fillPending pl l
  let f2 := fillPending pr r
  (mergeDecide c f1.1 f2.1 f1.2.2 f2.2.2).map
    fun d => (d.1, (d.2.1, f1.2.1), (d.2.2, f2.2.1))

/-- One fill of a pending slot in `TryMerge::poll_next`
(`src/stream/try_merge.rs`): pulling a failure aborts the poll with that
failure. -/
def tryFillPending {V E : Type} : Option V → List (RItem V E) →
    RItem (Option V × List (RItem V E) × Bool) E
  | some v, l => RItem.ok (some v, l, l.isEmpty)
  | none, [] => RItem.ok (none, [], true)
  | none, RItem.ok v :: l => RItem.ok (some v, l, false)
  | none, RItem.err e :: _ => RItem.err e

/-- One full poll step of `TryMerge::poll_next`: fill left (surfacing a
pulled failure), fill right likewise, then decide. `none` models an internal
panic. -/
def tryMergePollStep {V E : Type} (c : V → V → Ordering) (pl : Option V)
    (l : List (RItem V E)) (pr : Option V) (r : List (RItem V E)) :
    Option (RItem (Option V
      × (Option V × List (RItem V E)) × (Option V × List (RItem V E))) E) :=
  match tryFillPending pl l with
  | RItem.err e => some (RItem.err e)
  | RItem.ok (pl', l', ld) =>
    match tryFillPending pr r with
    | RItem.err e => some (RItem.err e)
    | RItem.ok (pr', r', rd) =>
      (mergeDecide c pl' pr' ld rd).map
        fun d => RItem.ok (d.1, (d.2.1, l'), (d.2.2, r'))

theorem fillPending_post {V : Type} : ∀ (p : Option V) (l : List V),
    (fillPending p l).1.isSome = true ∨ (fillPending p l).2.2 = true
  | some _, _ => Or.inl rfl
  | none, [] => Or.inr rfl
  | none, _ :: _ => Or.inl rfl

theorem tryFillPending_post {V E : Type} : ∀ (p : Option V) (l : List (RItem V E))
    (pv : Option V) (l' : List (RItem V E)) (d : Bool),
    tryFillPending p l = RItem.ok (pv, l', d) → pv.isSome = true ∨ d = true
  | some v, l, pv, l', d => fun h => by
    simp only [tryFillPending, RItem.ok.injEq, Prod.mk.injEq] at h
    obtain ⟨h1, -, -⟩ := h
    subst h1
    exact Or.inl rfl
  | none, [], pv, l', d => fun h => by
    simp only [tryFillPending, RItem.ok.injEq, Prod.mk.injEq] at h
    obtain ⟨-, -, h3⟩ := h
    subst h3
    exact Or.inr rfl
  | none, RItem.ok v :: l, pv, l', d => fun h => by
    simp only [tryFillPending, RItem.ok.injEq, Prod.mk.injEq] at h
    obtain ⟨h1, -, -⟩ := h
    subst h1
    exact Or.inl rfl
  | none, RItem.err e :: l, pv, l', d => fun h => by
    simp [tryFillPending] at h

theorem mergeDecide_total {V : Type} (c : V → V → Ordering)
    (pl pr : Option V) (ld rd : Bool)
    (h1 : pl.isSome = true ∨ ld = true) (h2 : pr.isSome = true ∨ rd = true) :
    (mergeDecide c pl pr ld rd).isSome = true := by
  cases pl with
  | some a =>
    cases pr with
    | some b => cases hc : c a b <;> simp [mergeDecide, hc]
    | none =>
      have hrd : rd = true := by simpa using h2
      subst hrd
      simp [mergeDecide, swap_value]
  | none =>
    have hld : ld = true := by simpa using h1
    subst hld
    cases pr with
    | some b => simp [mergeDecide, swap_value]
    | none =>
      have hrd : rd = true := by simpa using h2
      subst hrd
      simp [mergeDecide]

/-- C8: the internal panic branches of the merge combinators are
unreachable. After the fill phase each side either holds a pending value or
its source is done (`fillPending_post`), so in every poll step, from every
reachable state, neither `Merge::poll_next` nor `TryMerge::poll_next`
reaches the `unreachable!("both streams to merge are still pending")` branch
or applies `swap_value` to an empty pending slot: the modelled step, which
returns `none` exactly on those panics, always returns `some`. -/
theorem merge_poll_no_panic {V E : Type} (c : V → V → Ordering) :
    (∀ (pl : Option V) (l : List V) (pr : Option V) (r : List V),
      (mergePollStep c pl l pr r).isSome = true)
    ∧ (∀ (pl : Option V) (l : List (RItem V E)) (pr : Option V) (r : List (RItem V E)),
      (tryMergePollStep c pl l pr r).isSome = true)
    ∧ (∀ (p : Option V) (l : List V),
      (fillPending p l).1.isSome = true ∨ (fillPending p l).2.2 = true) := by
  refine ⟨?_, ?_, fillPending_post⟩
  · intro pl l pr r
    have hmap : ∀ {A B : Type} (o : Option A) (f : A → B),
        (o.map f).isSome = o.isSome := by
      intro A B o f
      cases o <;> rfl
    unfold mergePollStep
    rw [hmap]
    exact mergeDecide_total c _ _ _ _ (fillPending_post pl l) (fillPending_post pr r)
  · intro pl l pr r
    have hmap : ∀ {A B : Type} (o : Option A) (f : A → B),
        (o.map f).isSome = o.isSome := by
      intro A B o f
      cases o <;> rfl
    unfold tryMergePollStep
    cases hf1 : tryFillPending pl l with
    | err e => rfl
    | ok f1 =>
      obtain ⟨pl', l', ld⟩ := f1
      cases hf2 : tryFillPending pr r with
      | err e => rfl
      | ok f2 =>
        obtain ⟨pr', r', rd⟩ := f2
        rw [hmap]
        exact mergeDecide_total c _ _ _ _
          (tryFillPending_post pl l pl' l' ld hf1)
          (tryFillPending_post pr r pr' r' rd hf2)

/-- Models `Range<V, B>` of `src/range.rs` with `B = Vec<V>`: a composite-key
range, an exact prefix plus start and end bounds on the next component. The
`prefix` field is named `pfx` and the `end` field `stop` (Lean keyword
clashes). -/
structure KRange (V : Type) where
  pfx : List V
  start : CBound V
  stop : CBound V
deriving DecidableEq

/-- Models `Range::has_bounds`: `false` iff both bounds are unbounded. -/
def KRange.has_bounds {V : Type} (r : KRange V) : Bool :=
  match r.start, r.stop with
  | .unbounded, .unbounded => false
  | _, _ => true

/-- Models `Range::len`. -/
def KRange.len {V : Type} (r : KRange V) : Nat :=
  match r.start, r.stop with
  | .unbounded, .unbounded => r.pfx.length
  | _, _ => r.pfx.length + 1

/-- Models `Range::new(prefix, start..end)`: a half-open bound pair. -/
def KRange.new {V : Type} (p : List V) (s e : V) : KRange V :=
  ⟨p, .included s, .excluded e⟩

/-- Models `Range::with_prefix`. -/
def KRange.with_pfx {V : Type} (p : List V) : KRange V :=
  ⟨p, .unbounded, .unbounded⟩

/-- Models `<Range as Default>::default()`. -/
def KRange.default {V : Type} : KRange V :=
  ⟨[], .unbounded, .unbounded⟩

/-- Models `From<(B, Range<V>)>` (half-open suffix). -/
def KRange.from_range {V : Type} (p : List V) (s e : V) : KRange V :=
  ⟨p, .included s, .excluded e⟩

/-- Models `From<(B, RangeFrom<V>)>`. -/
def KRange.from_range_from {V : Type} (p : List V) (s : V) : KRange V :=
  ⟨p, .included s, .unbounded⟩

/-- Models `From<(B, RangeTo<V>)>`. -/
def KRange.from_range_to {V : Type} (p : List V) (e : V) : KRange V :=
  ⟨p, .unbounded, .excluded e⟩

/-- Models `From<(B, Bound<V>, Bound<V>)>`. -/
def KRange.from_bounds {V : Type} (p : List V) (s e : CBound V) : KRange V :=
  ⟨p, s, e⟩

/-- Models `Range::contains` of `src/range.rs`. Prefix comparison is Rust
slice equality (structural), not the collator. When the other prefix is
strictly longer, the component at index `self.pfx.length` exists thanks to
the length guard; the impossible empty-`drop` case maps to `false`. -/
def KRange.contains {V : Type} [DecidableEq V] (c : V → V → Ordering)
    (self other : KRange V) : Bool :=
  if other.pfx.length < self.pfx.length then false
  else if other.pfx.take self.pfx.length ≠ self.pfx then false
  else if other.pfx.length = self.pfx.length then
    match self.start with
    | .unbounded => true
    | .included outer =>
      match other.start with
      | .unbounded => false
      | .included inner => !(decide (c inner outer = .lt))
      | .excluded inner => decide (c inner outer = .gt)
    | .excluded outer =>
      match other.start with
      | .unbounded => false
      | .included inner => decide (c inner outer = .gt)
      | .excluded inner => !(decide (c inner outer = .lt))
  else
    match other.pfx.drop self.pfx.length with
    | [] => false
    | value :: _ =>
      (match self.start with
        | .unbounded => true
        | .included outer => !(decide (c value outer = .lt))
        | .excluded outer => decide (c value outer = .gt))
      && (match self.stop with
        | .unbounded => true
        | .included outer => !(decide (c value outer = .gt))
        | .excluded outer => decide (c value outer = .lt))

/-- C9: for every composite-key `Range`, `len()` is the prefix length plus
one exactly when the range has bounds and the prefix length otherwise, and
this holds for the ranges built by every constructor (`new`, `with_prefix`,
`default`, and the `From` conversions). -/
theorem range_len_spec {V : Type} :
    (∀ r : KRange V, r.len = r.pfx.length + (if r.has_bounds then 1 else 0))
    ∧ (∀ (p : List V) (s e : V), (KRange.new p s e).len = p.length + 1)
    ∧ (∀ p : List V, (KRange.with_pfx p).len = p.length)
    ∧ (KRange.default (V := V)).len = 0
    ∧ (∀ (p : List V) (s e : V), (KRange.from_range p s e).len = p.length + 1)
    ∧ (∀ (p : List V) (s : V), (KRange.from_range_from p s).len = p.length + 1)
    ∧ (∀ (p : List V) (e : V), (KRange.from_range_to p e).len = p.length + 1)
    ∧ (∀ (p : List V) (s e : CBound V),
        (KRange.from_bounds p s e).len
          = p.length + (if (KRange.from_bounds p s e).has_bounds then 1 else 0)) := by
  have hgen : ∀ r : KRange V, r.len = r.pfx.length + (if r.has_bounds then 1 else 0) := by
    intro r
    obtain ⟨p, s, e⟩ := r
    cases s <;> cases e <;> simp [KRange.len, KRange.has_bounds]
  refine ⟨hgen, ?_, ?_, rfl, ?_, ?_, ?_, fun p s e => hgen _⟩
  · intro p s e; rfl
  · intro p; rfl
  · intro p s e; rfl
  · intro p s; rfl
  · intro p e; rfl

/-- C10: for composite-key ranges with equal prefixes (same list of
components), `Range::contains` never inspects either range's end bound: the
equal-prefix-length branch of the code checks only the start bounds, so two
runs differing only in the end bounds return the same boolean. -/
theorem contains_ignores_ends {V : Type} [DecidableEq V] (c : V → V → Ordering)
    (p : List V) (sA eA eA' sB eB eB' : CBound V) :
    KRange.contains c ⟨p, sA, eA⟩ ⟨p, sB, eB⟩
      = KRange.contains c ⟨p, sA, eA'⟩ ⟨p, sB, eB'⟩ := by
  simp [KRange.contains, List.take_length]
